import Mathlib

/-!
Verification model of the timekeeper library
(src/include/timekeeper/timekeeper.hpp, src/include/timekeeper/time_counter.hpp).

Shallow embedding conventions:
* std::unordered_map<std::string, V> is modelled as an association list
  (List (String × V)) with first-match lookup; insertion canonicalizes by
  erasing the old binding, so lookup is the only observable.
* std::map<std::string, V> (ordered) is modelled as an association list kept
  sorted by key via ordered insertion (mapSet), matching iteration order.
* std::shared_ptr<T> payload sharing is modelled by a heap indirection:
  store entries hold a reference (Nat) into a heap association list, so
  aliasing is reference equality and mutation through one alias is visible
  through the other.
* Clock reads are passed in explicitly as Int microsecond timestamps.
-/

namespace Timekeeper

/-! ### Association-list primitives (model of std::unordered_map) -/

/-- First-match lookup in an association list. -/
def getKey {α : Type} : List (String × α) → String → Option α
  | [], _ => none
  | (k', v) :: rest, k => if k' = k then some v else getKey rest k

/-- Model of map.erase(k): drop every binding of k. -/
def eraseKey {α : Type} (l : List (String × α)) (k : String) : List (String × α) :=
  l.filter (fun p => p.1 != k)

/-- Model of map[k] = v (insert-or-assign). -/
def setKey {α : Type} (l : List (String × α)) (k : String) (v : α) : List (String × α) :=
  (k, v) :: eraseKey l k

/-- Model of map.emplace(k, v): no-op when k is already bound. -/
def emplaceKey {α : Type} (l : List (String × α)) (k : String) (v : α) : List (String × α) :=
  if (getKey l k).isSome then l else setKey l k v

/-- Model of std::unordered_set<std::string>::insert. -/
def childInsert (s : List String) (k : String) : List String :=
  if k ∈ s then s else k :: s

/-! ### HierarchicalMap (timekeeper.hpp lines 73-171) -/

/-- State of a HierarchicalMap<DataType>: the key-to-data map `map_` and the
key-to-child-set map `children_`.  The payload type α stands for
std::shared_ptr<DataType>; sharing a payload is equality of the α value. -/
structure HMState (α : Type) where
  map : List (String × α)
  children : List (String × List String)
deriving DecidableEq

/-- Child set recorded for a key (children_[k], defaulting to the empty set,
matching operator[] default construction). -/
def childrenOf {α : Type} (st : HMState α) (k : String) : List String :=
  (getKey st.children k).getD []

/-- HierarchicalMap::AddData (timekeeper.hpp lines 83-100).
If baseKey is non-empty and present: the new key's data becomes an alias of
baseKey's data and key is inserted into children_[baseKey].  If baseKey is
non-empty but absent this is only logged and handled like an empty baseKey.
Finally map_[key] = data and children_.emplace(key, {}). -/
def addData {α : Type} (st : HMState α) (key : String) (data : α) (baseKey : String) :
    HMState α :=
  let step : α × List (String × List String) :=
    if baseKey = "" then (data, st.children)
    else
      match getKey st.map baseKey with
      | none => (data, st.children)
      | some baseData =>
          (baseData, setKey st.children baseKey (childInsert (childrenOf st baseKey) key))
  { map := setKey st.map key step.1
    children := emplaceKey step.2 key [] }

/-- HierarchicalMap::FindData (timekeeper.hpp lines 105-109). -/
def findData {α : Type} (st : HMState α) (key : String) : Option α :=
  getKey st.map key

/-- HierarchicalMap::GetKeyGuard (timekeeper.hpp lines 113-131): a handle
exists exactly when the key is present; the handle wraps the payload. -/
def getKeyGuard {α : Type} (st : HMState α) (key : String) : Option α :=
  getKey st.map key

/-- The BFS loop of HierarchicalMap::RemoveKeyRecursive (lines 143-158):
pop the front key, enqueue its recorded children, erase its children_ record,
and erase its map_ entry. -/
def removeLoop {α : Type} (m : List (String × α)) (c : List (String × List String))
    (q : List String) : List (String × α) × List (String × List String) :=
  match q with
  | [] => (m, c)
  | cur :: rest =>
    match h : getKey c cur with
    | some kids => removeLoop (eraseKey m cur) (eraseKey c cur) (rest ++ kids)
    | none => removeLoop (eraseKey m cur) c rest
termination_by (c.length, q.length)
decreasing_by
  · simp_wf
    apply Prod.Lex.left
    revert h
    induction c with
    | nil => intro h; simp [getKey] at h
    | cons p rest2 ih =>
      intro h
      by_cases hp : p.1 = cur
      · have hf : (p.1 != cur) = false := by simp [hp]
        calc (eraseKey (p :: rest2) cur).length
            = (eraseKey rest2 cur).length := by simp [eraseKey, List.filter_cons, hf]
          _ ≤ rest2.length := List.length_filter_le _ _
          _ < (p :: rest2).length := Nat.lt_succ_of_le (Nat.le_refl _)
      · have hf : (p.1 != cur) = true := by simp [hp]
        have h2 : getKey rest2 cur = some kids := by
          simpa [getKey, hp] using h
        have := ih h2
        calc (eraseKey (p :: rest2) cur).length
            = (eraseKey rest2 cur).length + 1 := by simp [eraseKey, List.filter_cons, hf]
          _ < rest2.length + 1 := Nat.succ_lt_succ this
          _ = (p :: rest2).length := rfl
  · simp_wf
    apply Prod.Lex.right
    simp

/-- HierarchicalMap::RemoveKeyRecursive (timekeeper.hpp lines 136-166),
run by the KeyGuard deleter when the last handle for a key is dropped. -/
def removeKeyRecursive {α : Type} (st : HMState α) (key : String) : HMState α :=
  let r := removeLoop st.map st.children [key]
  { map := r.1, children := r.2 }

/-- Dropping the last outstanding KeyGuard obtained for key runs the
recursive removal under the store lock (deleter at lines 124-130). -/
def dropLastGuard {α : Type} (st : HMState α) (key : String) : HMState α :=
  removeKeyRecursive st key

/-- Reachability over the children_ relation: the set of keys visited by the
recursive removal starting from a key. -/
inductive Reach (c : List (String × List String)) : String → String → Prop
  | refl (a : String) : Reach c a a
  | step {a b x : String} : Reach c a b → x ∈ (getKey c b).getD [] → Reach c a x

/-! ### Sorted association list (model of std::map, iteration in key order) -/

/-- Model of std::map operator[] assignment: ordered insert-or-assign, keeping
the list sorted by key so that iteration order matches std::map. -/
def mapSet {α : Type} : List (String × α) → String → α → List (String × α)
  | [], k, v => [(k, v)]
  | (k', v') :: rest, k, v =>
    if k < k' then (k, v) :: (k', v') :: rest
    else if k = k' then (k, v) :: rest
    else (k', v') :: mapSet rest k v

/-! ### TimeCounter span map (time_counter.hpp lines 93-108 and 110-142) -/

/-- The merge callback installed by TimeCounter::add_recorder (lines 94-102):
on an emission (name, start_us, end_us), if the name is absent the pair is
first set to (start_us, end_us); then first takes the min with start_us and
second the max with end_us. -/
def spanMerge (spans : List (String × Int × Int)) (name : String) (s e : Int) :
    List (String × Int × Int) :=
  let sp1 := if (getKey spans name).isSome then spans else mapSet spans name (s, e)
  let cur := (getKey sp1 name).getD (s, e)
  mapSet sp1 name (min cur.1 s, max cur.2 e)

/-- Delivering a sequence of emissions for one name to the aggregator. -/
def runEmissions (spans : List (String × Int × Int)) (name : String)
    (l : List (Int × Int)) : List (String × Int × Int) :=
  l.foldl (fun acc p => spanMerge acc name p.1 p.2) spans

/-- Zero-pads a number below 1000 to three digits, as the fractional part of
printf %.3f. -/
def pad3 (n : Nat) : String :=
  if n < 10 then "00" ++ toString n
  else if n < 100 then "0" ++ toString n
  else toString n

/-- Models snprintf("%.3f", us / 1000.0) for a nonnegative integer count of
microseconds: integer milliseconds, a dot, then exactly three fractional
digits.  (For the magnitudes involved the double rounding of the C++ code
never changes the third decimal, so this digit-exact form is faithful.) -/
def fmtMs (us : Int) : String :=
  toString (us / 1000) ++ "." ++ pad3 (us % 1000).toNat

/-- One rendered span of TimeCounter::report (lines 122-132). -/
def spanEntry (p : String × Int × Int) : String :=
  "[" ++ p.1 ++ ": " ++ fmtMs (p.2.2 - p.2.1) ++ "(ms)]"

/-- The rendering part of TimeCounter::report (lines 120-141): map each span
to its entry in key order, then join with single spaces, first entry bare.
(The force-finalization of still-live recorders at lines 112-118 happens
before this; the spans argument is the state after those emissions.) -/
def tcReport (spans : List (String × Int × Int)) : String :=
  match spans.map spanEntry with
  | [] => ""
  | s :: rest => rest.foldl (fun acc x => acc ++ " " ++ x) s

/-- Spec-side plain concatenation of rendered pieces. -/
def joinAll : List String → String
  | [] => ""
  | s :: rest => s ++ joinAll rest

/-- Spec-side space-separated join with no trailing separator. -/
def joinSpace : List String → String
  | [] => ""
  | [s] => s
  | s :: x :: xs => s ++ " " ++ joinSpace (x :: xs)

/-! ### ThreadData (timekeeper.hpp lines 19-70), the Context of the spec -/

/-- A ThreadData: its logid, its std::map of log fields (sorted by key), and
the merged span map of its owned TimeCounter. -/
structure ThreadDataM where
  logid : String
  fields : List (String × String)
  spans : List (String × Int × Int)
deriving DecidableEq

/-- ThreadData::add_log_field (timekeeper.hpp lines 63-69): a no-op when the
key is present and need_overwrite is false, otherwise assigns. -/
def tdAddLogField (td : ThreadDataM) (key value : String) (need_overwrite : Bool) :
    ThreadDataM :=
  if (getKey td.fields key).isSome && !need_overwrite then td
  else { td with fields := mapSet td.fields key value }

/-- ThreadData::report (timekeeper.hpp lines 35-45): the logid tag, then one
field tag per log field appended in map iteration order, then a space and the
TimeCounter report. -/
def tdReport (td : ThreadDataM) : String :=
  (td.fields.foldl (fun acc p => acc ++ " [" ++ p.1 ++ ": " ++ p.2 ++ "]")
    ("[logid: " ++ td.logid ++ "]")) ++ " " ++ tcReport td.spans

/-- Spec-side rendering of a Context report from its parts. -/
def specTdReport (id : String) (fields : List (String × String)) (spanRep : String) :
    String :=
  "[logid: " ++ id ++ "]"
    ++ joinAll (fields.map (fun p => " [" ++ p.1 ++ ": " ++ p.2 ++ "]"))
    ++ " " ++ spanRep

/-! ### TimeRecorder (time_counter.hpp lines 13-79), the Timer of the spec -/

/-- A TimeRecorder's mutable state.  Timestamps are Int microseconds; the
emission callback is modelled by returning the emitted triple. -/
structure TimeRecorderM where
  name : String
  create_at : Int
  start_at : Int
  end_at : Int
  is_start : Bool
  is_end : Bool
  uploaded : Bool
deriving DecidableEq

/-- TimeRecorder constructor (lines 20-25) at creation instant now. -/
def trInit (name : String) (now : Int) : TimeRecorderM :=
  { name := name, create_at := now, start_at := 0, end_at := 0,
    is_start := false, is_end := false, uploaded := false }

/-- TimeRecorder::upload (lines 59-68): a no-op when already uploaded;
otherwise emits (name, effective start, effective end) once and marks the
recorder uploaded.  Effective start is start_at when started else create_at;
effective end is end_at when ended else the current instant. -/
def trUpload (tr : TimeRecorderM) (now : Int) :
    TimeRecorderM × Option (String × Int × Int) :=
  if tr.uploaded then (tr, none)
  else
    ({ tr with uploaded := true },
     some (tr.name,
           if tr.is_start then tr.start_at else tr.create_at,
           if tr.is_end then tr.end_at else now))

/-- TimeRecorder::start (lines 38-45): records now only when not yet started
and not yet ended. -/
def trStart (tr : TimeRecorderM) (now : Int) : TimeRecorderM :=
  if tr.is_end || tr.is_start then tr
  else { tr with start_at := now, is_start := true }

/-- TimeRecorder::end (lines 47-56): a no-op when already ended; otherwise
records now as the end and uploads. -/
def trEnd (tr : TimeRecorderM) (now : Int) :
    TimeRecorderM × Option (String × Int × Int) :=
  if tr.is_end then (tr, none)
  else trUpload { tr with end_at := now, is_end := true } now

/-- Operations a caller (or the aggregator's report, or the destructor) can
apply to a TimeRecorder during its lifetime: start() at an instant, end() at
an instant (stop), and forced finalization (destructor at lines 27-30, or
report's forced end). -/
inductive TROp where
  | start : Int → TROp
  | stop : Int → TROp
  | finalize : Int → TROp
deriving DecidableEq

/-- One operation applied to a recorder, returning the possible emission. -/
def trStep (tr : TimeRecorderM) : TROp → TimeRecorderM × Option (String × Int × Int)
  | TROp.start t => (trStart tr t, none)
  | TROp.stop t => trEnd tr t
  | TROp.finalize t => trUpload tr t

/-- Running a sequence of operations, collecting every emission in order. -/
def trRun (tr : TimeRecorderM) : List TROp → TimeRecorderM × List (String × Int × Int)
  | [] => (tr, [])
  | op :: rest =>
    let s1 := trStep tr op
    let s2 := trRun s1.1 rest
    (s2.1, s1.2.toList ++ s2.2)

/-- The effective start the spec predicts for a fresh recorder's lifecycle:
the instant of the start() recorded before the recorder emits, else the
creation instant.  A start() is recorded exactly when it precedes every
end()/forced finalization (the first emitting operation ends the recorder's
observable life, and a start() arriving after an end() is the documented
idempotent no-op), so the recorded start, when one exists, is the leading
operation of the sequence. -/
def effStartOfOps (c : Int) : List TROp → Int
  | TROp.start u :: _ => u
  | _ => c

/-! ### Store of shared ThreadData payloads (for payload-aliasing claims) -/

/-- Lookup in the heap of shared_ptr targets. -/
def heapGet (h : List (Nat × ThreadDataM)) (r : Nat) : Option ThreadDataM :=
  match h with
  | [] => none
  | (r', td) :: rest => if r' = r then some td else heapGet rest r

/-- Update of one shared_ptr target in the heap. -/
def heapSet (h : List (Nat × ThreadDataM)) (r : Nat) (td : ThreadDataM) :
    List (Nat × ThreadDataM) :=
  match h with
  | [] => [(r, td)]
  | (r', td') :: rest => if r' = r then (r, td) :: rest else (r', td') :: heapSet rest r td

/-- A HierarchicalMap<ThreadData> together with the heap its shared_ptr
payloads live in: map entries hold references (Nat) into the heap, so two
keys alias the same payload exactly when they hold the same reference. -/
structure StoreM where
  heap : List (Nat × ThreadDataM)
  hm : HMState Nat
deriving DecidableEq

/-- AddData on the store: only the key-to-reference structure changes. -/
def storeAdd (st : StoreM) (key : String) (dataRef : Nat) (baseKey : String) : StoreM :=
  { st with hm := addData st.hm key dataRef baseKey }

/-- Mutating a log field through a key: FindData then add_log_field on the
shared payload the key's reference points to. -/
def storeWriteField (st : StoreM) (k fkey fval : String) (ow : Bool) : StoreM :=
  match getKey st.hm.map k with
  | none => st
  | some r =>
    match heapGet st.heap r with
    | none => st
    | some td => { st with heap := heapSet st.heap r (tdAddLogField td fkey fval ow) }

/-- Reading a log field through a key. -/
def storeReadField (st : StoreM) (k fkey : String) : Option String :=
  match getKey st.hm.map k with
  | none => none
  | some r => (heapGet st.heap r).bind (fun td => getKey td.fields fkey)

/-! ### ThreadDataManager::GetKeyGuard (timekeeper.hpp lines 240-255) -/

/-- Possible outcomes of ThreadDataManager::GetKeyGuard. -/
inductive GuardResult where
  | fresh : GuardResult
  | storeGuard : String → GuardResult
  | nullDeref : GuardResult
deriving DecidableEq

/-- Direct translation of ThreadDataManager::GetKeyGuard (lines 240-255).
The code tests `if (_logid_ptr)`, not `if (!_logid_ptr)`: when the
thread-local identifier IS set it logs "ThreadData not initialized" and
returns a fresh default ThreadData; when it is NOT set, control falls
through to `*_logid_ptr`, dereferencing a null pointer.  The intended
result `data_map_.GetKeyGuard(logid)` (here `storeGuard logid`) is
unreachable.  Compare GetCurrentThreadData (lines 258-262), which guards
the same message with `if (!_logid_ptr)`. -/
def tdmGetKeyGuard (logidPtr : Option String) : GuardResult :=
  match logidPtr with
  | some _ => GuardResult.fresh
  | none => GuardResult.nullDeref

/-! ### Concrete states used by witnesses and counterexamples -/

/-- A store holding "parent" with derived child "child", both aliasing
payload 0. -/
def c1St : HMState Nat :=
  { map := [("parent", 0), ("child", 0)]
    children := [("parent", ["child"]), ("child", [])] }

/-- A store whose key "parent" holds a reference to payload 0 in the heap. -/
def c4St : StoreM :=
  { heap := [(0, { logid := "p", fields := [], spans := [] })]
    hm := { map := [("parent", 0)], children := [("parent", [])] } }

/-- A Context with identifier x, no fields and no spans. -/
def c6Td : ThreadDataM := { logid := "x", fields := [], spans := [] }

/-- A store holding "p" with child "c" recorded before any rebind. -/
def c10St : HMState Nat :=
  { map := [("p", 1), ("c", 1)]
    children := [("p", ["c"]), ("c", [])] }

/-! ### Lemmas: association-list primitives -/

theorem getKey_eraseKey {α : Type} (l : List (String × α)) (k x : String) :
    getKey (eraseKey l k) x = if x = k then none else getKey l x := by
  induction l with
  | nil => simp [eraseKey, getKey]
  | cons p rest ih =>
    obtain ⟨k', v⟩ := p
    by_cases hk : k' = k
    · have he : eraseKey ((k', v) :: rest) k = eraseKey rest k := by
        simp [eraseKey, List.filter_cons, hk]
      rw [he, ih]
      rcases eq_or_ne x k with rfl | hx
      · simp
      · have hne : ¬ (k' = x) := by rw [hk]; exact Ne.symm hx
        simp [getKey, hne, hx]
    · have he : eraseKey ((k', v) :: rest) k = (k', v) :: eraseKey rest k := by
        simp [eraseKey, List.filter_cons, hk]
      rw [he]
      rcases eq_or_ne x k with rfl | hx
      · simp [getKey, hk, ih]
      · simp [getKey, ih, hx]

theorem getKey_setKey {α : Type} (l : List (String × α)) (k : String) (v : α) (x : String) :
    getKey (setKey l k v) x = if k = x then some v else getKey l x := by
  unfold setKey
  rcases eq_or_ne k x with rfl | h
  · simp [getKey]
  · simp [getKey, h, getKey_eraseKey, Ne.symm h]

theorem emplaceKey_present {α : Type} {l : List (String × α)} {k : String} (v : α)
    (h : (getKey l k).isSome) : emplaceKey l k v = l := by
  simp [emplaceKey, h]

theorem getKey_emplaceKey_absent {α : Type} {l : List (String × α)} {k : String} (v : α)
    (x : String) (h : getKey l k = none) :
    getKey (emplaceKey l k v) x = if k = x then some v else getKey l x := by
  simp [emplaceKey, h, getKey_setKey]

theorem getKey_mapSet {α : Type} (l : List (String × α)) (k : String) (v : α) (x : String) :
    getKey (mapSet l k v) x = if k = x then some v else getKey l x := by
  induction l with
  | nil => simp [mapSet, getKey]
  | cons p rest ih =>
    obtain ⟨k', v'⟩ := p
    rw [mapSet]
    by_cases h1 : k < k'
    · rw [if_pos h1]
      simp [getKey]
    · rw [if_neg h1]
      by_cases h2 : k = k'
      · rw [if_pos h2]
        subst h2
        rcases eq_or_ne k x with rfl | hx
        · simp [getKey]
        · simp [getKey, hx]
      · rw [if_neg h2]
        rcases eq_or_ne k' x with rfl | hx
        · simp [getKey, ih, h2]
        · simp [getKey, hx, ih]

theorem mem_mapSet {α : Type} {l : List (String × α)} {k : String} {v : α}
    {x : String × α} (h : x ∈ mapSet l k v) : x = (k, v) ∨ x ∈ l := by
  induction l with
  | nil => simpa [mapSet] using h
  | cons p rest ih =>
    obtain ⟨k', v'⟩ := p
    rw [mapSet] at h
    by_cases h1 : k < k'
    · rw [if_pos h1] at h
      rcases List.mem_cons.mp h with rfl | h'
      · exact Or.inl rfl
      · exact Or.inr h'
    · rw [if_neg h1] at h
      by_cases h2 : k = k'
      · rw [if_pos h2] at h
        rcases List.mem_cons.mp h with rfl | h'
        · exact Or.inl rfl
        · exact Or.inr (List.mem_cons_of_mem _ h')
      · rw [if_neg h2] at h
        rcases List.mem_cons.mp h with rfl | h'
        · exact Or.inr (List.mem_cons_self _ _)
        · rcases ih h' with h'' | h''
          · exact Or.inl h''
          · exact Or.inr (List.mem_cons_of_mem _ h'')

theorem pairwise_mapSet {α : Type} {l : List (String × α)} {k : String} {v : α}
    (h : l.Pairwise (fun a b => a.1 < b.1)) :
    (mapSet l k v).Pairwise (fun a b => a.1 < b.1) := by
  induction l with
  | nil => simp [mapSet]
  | cons p rest ih =>
    obtain ⟨k', v'⟩ := p
    rw [List.pairwise_cons] at h
    obtain ⟨hall, hrest⟩ := h
    rw [mapSet]
    by_cases h1 : k < k'
    · rw [if_pos h1]
      refine List.Pairwise.cons ?_ (List.Pairwise.cons hall hrest)
      intro b hb
      rcases List.mem_cons.mp hb with rfl | hb'
      · exact h1
      · exact lt_trans h1 (hall b hb')
    · rw [if_neg h1]
      by_cases h2 : k = k'
      · rw [if_pos h2]
        subst h2
        exact List.Pairwise.cons hall hrest
      · rw [if_neg h2]
        refine List.Pairwise.cons ?_ (ih hrest)
        intro b hb
        rcases mem_mapSet hb with rfl | hb'
        · exact lt_of_le_of_ne (le_of_not_lt h1) (Ne.symm h2)
        · exact hall b hb'

theorem heapGet_heapSet (h : List (Nat × ThreadDataM)) (r : Nat) (td : ThreadDataM)
    (r' : Nat) :
    heapGet (heapSet h r td) r' = if r = r' then some td else heapGet h r' := by
  induction h with
  | nil => simp [heapSet, heapGet]
  | cons p rest ih =>
    obtain ⟨r0, td0⟩ := p
    rw [heapSet]
    by_cases h0 : r0 = r
    · rw [if_pos h0]
      subst h0
      rcases eq_or_ne r0 r' with rfl | hx
      · simp [heapGet]
      · simp [heapGet, hx]
    · rw [if_neg h0]
      rcases eq_or_ne r0 r' with rfl | hx
      · have hne : ¬ (r = r0) := fun hc => h0 hc.symm
        simp [heapGet, hne]
      · simp [heapGet, hx, ih]

/-! ### Lemmas: recursive removal -/

theorem removeLoop_nil {α : Type} (m : List (String × α)) (c : List (String × List String)) :
    removeLoop m c [] = (m, c) := by
  simp [removeLoop]

theorem removeLoop_cons_some {α : Type} {m : List (String × α)}
    {c : List (String × List String)} {cur : String} {kids : List String}
    (rest : List String) (h : getKey c cur = some kids) :
    removeLoop m c (cur :: rest) =
      removeLoop (eraseKey m cur) (eraseKey c cur) (rest ++ kids) := by
  rw [removeLoop]
  split <;> simp_all

theorem removeLoop_cons_none {α : Type} {m : List (String × α)}
    {c : List (String × List String)} {cur : String}
    (rest : List String) (h : getKey c cur = none) :
    removeLoop m c (cur :: rest) = removeLoop (eraseKey m cur) c rest := by
  rw [removeLoop]
  split <;> simp_all

/-- The removal loop never resurrects a key: an absent map key stays absent. -/
theorem removeLoop_preserve_none {α : Type} (m : List (String × α))
    (c : List (String × List String)) (q : List String) (x : String)
    (h : getKey m x = none) : getKey (removeLoop m c q).1 x = none := by
  induction m, c, q using removeLoop.induct with
  | case1 m c => simpa [removeLoop_nil] using h
  | case2 m c cur rest kids hk ih =>
    rw [removeLoop_cons_some rest hk]
    apply ih
    rw [getKey_eraseKey]
    split <;> simp [h]
  | case3 m c cur rest hk ih =>
    rw [removeLoop_cons_none rest hk]
    apply ih
    rw [getKey_eraseKey]
    split <;> simp [h]

/-- Transitivity of reachability over the children relation. -/
theorem Reach.trans {c : List (String × List String)} {a b d : String}
    (h1 : Reach c a b) (h2 : Reach c b d) : Reach c a d := by
  induction h2 with
  | refl => exact h1
  | step _ hm ih => exact Reach.step ih hm

/-- A key with no recorded children reaches only itself. -/
theorem reach_of_no_children {c : List (String × List String)} {s x : String}
    (hc : getKey c s = none) (h : Reach c s x) : x = s := by
  induction h with
  | refl => rfl
  | step _ hm ih =>
    subst ih
    rw [hc] at hm
    simp at hm

/-- Erasing a child record only shrinks reachability. -/
theorem reach_erase_mono {c : List (String × List String)} {cur s x : String}
    (h : Reach (eraseKey c cur) s x) : Reach c s x := by
  induction h with
  | refl => exact Reach.refl _
  | @step b y hab hmem ih =>
    rcases eq_or_ne b cur with rfl | hb
    · simp [getKey_eraseKey] at hmem
    · rw [getKey_eraseKey, if_neg hb] at hmem
      exact Reach.step ih hmem

/-- Splitting a reachability path at a node whose child record is erased:
the target is the node itself, or reachable avoiding the node's edges, or
reachable from one of the node's recorded children avoiding its edges. -/
theorem reach_erase_split {c : List (String × List String)} {cur s x : String}
    (h : Reach c s x) :
    x = cur ∨ Reach (eraseKey c cur) s x ∨
      ∃ z ∈ (getKey c cur).getD [], Reach (eraseKey c cur) z x := by
  induction h with
  | refl => exact Or.inr (Or.inl (Reach.refl _))
  | @step b y hab hmem ih =>
    rcases ih with rfl | hr | ⟨z, hz, hr⟩
    · exact Or.inr (Or.inr ⟨y, hmem, Reach.refl y⟩)
    · rcases eq_or_ne b cur with rfl | hb
      · exact Or.inr (Or.inr ⟨y, hmem, Reach.refl y⟩)
      · refine Or.inr (Or.inl (Reach.step hr ?_))
        rw [getKey_eraseKey, if_neg hb]
        exact hmem
    · rcases eq_or_ne b cur with rfl | hb
      · exact Or.inr (Or.inr ⟨y, hmem, Reach.refl y⟩)
      · refine Or.inr (Or.inr ⟨z, hz, Reach.step hr ?_⟩)
        rw [getKey_eraseKey, if_neg hb]
        exact hmem

/-- Soundness and completeness of the BFS loop on the map component: every
key reachable from the queue is erased. -/
theorem removeLoop_removes {α : Type} (m : List (String × α))
    (c : List (String × List String)) (q : List String) (x : String)
    (h : ∃ s ∈ q, Reach c s x) : getKey (removeLoop m c q).1 x = none := by
  induction m, c, q using removeLoop.induct with
  | case1 m c => simp at h
  | case2 m c cur rest kids hk ih =>
    rw [removeLoop_cons_some rest hk]
    obtain ⟨s, hs, hr⟩ := h
    have hsplit : x = cur ∨ Reach (eraseKey c cur) s x ∨
        ∃ z ∈ (getKey c cur).getD [], Reach (eraseKey c cur) z x :=
      reach_erase_split hr
    rcases hsplit with rfl | hr' | ⟨z, hz, hr'⟩
    · apply removeLoop_preserve_none
      simp [getKey_eraseKey]
    · rcases List.mem_cons.mp hs with heq | hs'
      · rw [heq] at hr'
        have hx : x = cur := by
          refine reach_of_no_children ?_ hr'
          simp [getKey_eraseKey]
        subst hx
        apply removeLoop_preserve_none
        simp [getKey_eraseKey]
      · exact ih ⟨s, List.mem_append_left _ hs', hr'⟩
    · apply ih
      rw [hk] at hz
      exact ⟨z, List.mem_append_right rest hz, hr'⟩
  | case3 m c cur rest hk ih =>
    rw [removeLoop_cons_none rest hk]
    obtain ⟨s, hs, hr⟩ := h
    rcases List.mem_cons.mp hs with heq | hs'
    · rw [heq] at hr
      have hx : x = cur := reach_of_no_children hk hr
      subst hx
      apply removeLoop_preserve_none
      simp [getKey_eraseKey]
    · exact ih ⟨s, hs', hr⟩

/-- Frame property of the BFS loop: a key not reachable from the queue keeps
exactly its old binding. -/
theorem removeLoop_frame {α : Type} (m : List (String × α))
    (c : List (String × List String)) (q : List String) (x : String)
    (h : ¬ ∃ s ∈ q, Reach c s x) : getKey (removeLoop m c q).1 x = getKey m x := by
  induction m, c, q using removeLoop.induct with
  | case1 m c => rw [removeLoop_nil]
  | case2 m c cur rest kids hk ih =>
    rw [removeLoop_cons_some rest hk]
    have hxcur : x ≠ cur := by
      intro hx
      subst hx
      exact h ⟨_, List.mem_cons_self _ _, Reach.refl _⟩
    rw [ih, getKey_eraseKey, if_neg hxcur]
    intro hex
    obtain ⟨s, hs, hr⟩ := hex
    have hr2 : Reach c s x := reach_erase_mono hr
    rcases List.mem_append.mp hs with hs' | hs'
    · exact h ⟨s, List.mem_cons_of_mem cur hs', hr2⟩
    · refine h ⟨cur, List.mem_cons_self _ _, Reach.trans ?_ hr2⟩
      refine Reach.step (Reach.refl cur) ?_
      rw [hk]
      exact hs'
  | case3 m c cur rest hk ih =>
    rw [removeLoop_cons_none rest hk]
    have hxcur : x ≠ cur := by
      intro hx
      subst hx
      exact h ⟨_, List.mem_cons_self _ _, Reach.refl _⟩
    rw [ih, getKey_eraseKey, if_neg hxcur]
    intro hex
    obtain ⟨s, hs, hr⟩ := hex
    exact h ⟨s, List.mem_cons_of_mem cur hs, hr⟩

/-- Removal of a key erases exactly the keys reachable from it. -/
theorem removeKeyRecursive_removes {α : Type} (st : HMState α) (k x : String)
    (h : Reach st.children k x) : findData (removeKeyRecursive st k) x = none := by
  exact removeLoop_removes st.map st.children [k] x ⟨k, List.mem_singleton_self k, h⟩

/-- Removal of a key leaves every unreachable key bound as before. -/
theorem removeKeyRecursive_frame {α : Type} (st : HMState α) (k x : String)
    (h : ¬ Reach st.children k x) :
    findData (removeKeyRecursive st k) x = findData st x := by
  apply removeLoop_frame
  intro hex
  obtain ⟨s, hs, hr⟩ := hex
  rw [List.mem_singleton] at hs
  subst hs
  exact h hr

/-- Emplacing an empty child set for a key never makes that key a member of
any child set. -/
theorem mem_emplace_empty (c : List (String × List String)) (k p : String) :
    (k ∈ (getKey (emplaceKey c k []) p).getD []) ↔ (k ∈ (getKey c p).getD []) := by
  by_cases hck : (getKey c k).isSome
  · rw [emplaceKey_present _ hck]
  · have hnone : getKey c k = none := Option.not_isSome_iff_eq_none.mp hck
    rw [getKey_emplaceKey_absent _ _ hnone]
    rcases eq_or_ne k p with rfl | hkp
    · rw [if_pos rfl, hnone]
      simp
    · rw [if_neg hkp]

/-- C1: for every store state in which key k exists, a handle is obtainable
via GetKeyGuard(k), and dropping the last outstanding handle removes k and,
transitively, every key reachable from k over the children relation —
a subsequent FindData on any removed key returns absent — while every key
not reachable from k keeps exactly its previous binding (nothing else is
removed). -/
theorem drop_last_guard_removes_subtree {α : Type} (st : HMState α) (k : String)
    (hk : (findData st k).isSome) :
    (getKeyGuard st k).isSome ∧
    ∀ x : String,
      (Reach st.children k x → findData (dropLastGuard st k) x = none) ∧
      (¬ Reach st.children k x → findData (dropLastGuard st k) x = findData st x) :=
  ⟨hk, fun x => ⟨fun h => removeKeyRecursive_removes st k x h,
    fun h => removeKeyRecursive_frame st k x h⟩⟩

/-- Witness for C1: in the concrete store holding "parent" with derived child
"child", dropping the last handle for "parent" leaves "child" absent. -/
theorem drop_last_guard_removes_subtree_witness :
    (findData c1St "parent").isSome ∧
    findData (dropLastGuard c1St "parent") "child" = none := by
  constructor
  · decide
  · refine ((drop_last_guard_removes_subtree c1St "parent" (by decide)).2 "child").1 ?_
    refine Reach.step (Reach.refl "parent") ?_
    decide

/-- C8: AddData with a non-empty but absent baseKey does not fail: the
resulting state is identical to calling AddData with an empty baseKey, the
key is bound to the supplied data and retrievable via FindData, and no
child set gains the key (it is recorded as nobody's child). -/
theorem addData_missing_base_falls_back {α : Type} (st : HMState α) (k : String)
    (d : α) (b : String) (hb : b ≠ "") (habs : getKey st.map b = none) :
    addData st k d b = addData st k d "" ∧
    findData (addData st k d b) k = some d ∧
    ∀ p : String, (k ∈ childrenOf (addData st k d b) p ↔ k ∈ childrenOf st p) := by
  have heq : addData st k d b = addData st k d "" := by
    simp [addData, hb, habs]
  refine ⟨heq, ?_, ?_⟩
  · rw [heq]
    simp [findData, addData, getKey_setKey]
  · intro p
    rw [heq]
    show k ∈ (getKey (emplaceKey st.children k []) p).getD [] ↔
      k ∈ (getKey st.children p).getD []
    exact mem_emplace_empty st.children k p

/-- Witness for C8: deriving "k" from the absent base "missing" in the empty
store equals a top-level registration and "k" is retrievable. -/
theorem addData_missing_base_falls_back_witness :
    addData ({ map := [], children := [] } : HMState Nat) "k" 7 "missing" =
      addData ({ map := [], children := [] } : HMState Nat) "k" 7 "" ∧
    findData (addData ({ map := [], children := [] } : HMState Nat) "k" 7 "missing") "k" =
      some 7 := by
  have h := addData_missing_base_falls_back ({ map := [], children := [] } : HMState Nat)
    "k" 7 "missing" (by decide) (by decide)
  exact ⟨h.1, h.2.1⟩

/-- C10: re-adding an existing key with an empty baseKey rebinds the key's
payload to the new data but leaves the children_ map unchanged (the child-set
emplace is a no-op for an existing key), so a later removal of the key still
cascades to the children recorded before the rebind. -/
theorem addData_rebind_keeps_children {α : Type} (st : HMState α) (k : String)
    (d1 d2 : α) (s : List String)
    (hk : getKey st.map k = some d1) (hc : getKey st.children k = some s) :
    findData (addData st k d2 "") k = some d2 ∧
    (addData st k d2 "").children = st.children ∧
    ∀ c ∈ s, findData (removeKeyRecursive (addData st k d2 "") k) c = none := by
  have hch : (addData st k d2 "").children = st.children := by
    show emplaceKey st.children k [] = st.children
    exact emplaceKey_present _ (by simp [hc])
  refine ⟨by simp [findData, addData, getKey_setKey], hch, ?_⟩
  intro c hcmem
  apply removeKeyRecursive_removes
  rw [hch]
  refine Reach.step (Reach.refl k) ?_
  rw [hc]
  exact hcmem

/-- Witness for C10: rebinding "p" to payload 2 keeps child "c" recorded, and
removing "p" afterwards still removes "c". -/
theorem addData_rebind_keeps_children_witness :
    findData (addData c10St "p" 2 "") "p" = some 2 ∧
    findData (removeKeyRecursive (addData c10St "p" 2 "") "p") "c" = none := by
  have h := addData_rebind_keeps_children c10St "p" 1 2 ["c"] (by decide) (by decide)
  exact ⟨h.1, h.2.2 "c" (by decide)⟩

/-! ### Log fields, payload aliasing, and the manager's GetKeyGuard -/

/-- Without overwrite, add_log_field on a present key is a no-op. -/
theorem tdAddLogField_present {td : ThreadDataM} {k : String} (v' : String)
    (h : (getKey td.fields k).isSome = true) : tdAddLogField td k v' false = td := by
  simp [tdAddLogField, h]

/-- C9: writing a value to an absent field key stores it; a second write with
overwrite false is a no-op (first write wins); a second write with overwrite
true updates the stored value. -/
theorem add_log_field_first_write_wins (td : ThreadDataM) (k v1 v2 : String)
    (h : getKey td.fields k = none) :
    getKey (tdAddLogField td k v1 false).fields k = some v1 ∧
    getKey (tdAddLogField (tdAddLogField td k v1 false) k v2 false).fields k = some v1 ∧
    getKey (tdAddLogField (tdAddLogField td k v1 false) k v2 true).fields k = some v2 := by
  have h1 : tdAddLogField td k v1 false = { td with fields := mapSet td.fields k v1 } := by
    simp [tdAddLogField, h]
  have hg1 : getKey (tdAddLogField td k v1 false).fields k = some v1 := by
    rw [h1]
    simp [getKey_mapSet]
  refine ⟨hg1, ?_, ?_⟩
  · rw [tdAddLogField_present v2 (by rw [hg1]; rfl)]
    exact hg1
  · simp [tdAddLogField, getKey_mapSet]

/-- Witness for C9 on an empty Context. -/
theorem add_log_field_first_write_wins_witness :
    getKey (tdAddLogField ({ logid := "id", fields := [], spans := [] } : ThreadDataM)
      "k" "v1" false).fields "k" = some "v1" ∧
    getKey (tdAddLogField (tdAddLogField
      ({ logid := "id", fields := [], spans := [] } : ThreadDataM) "k" "v1" false)
      "k" "v2" false).fields "k" = some "v1" ∧
    getKey (tdAddLogField (tdAddLogField
      ({ logid := "id", fields := [], spans := [] } : ThreadDataM) "k" "v1" false)
      "k" "v2" true).fields "k" = some "v2" :=
  add_log_field_first_write_wins { logid := "id", fields := [], spans := [] }
    "k" "v1" "v2" (by decide)

/-- C4: after deriving child from a present parent, both keys hold the
identical payload reference, and a field mutation performed through either
key is observable when reading through the other. -/
theorem derived_key_aliases_parent (st : StoreM) (child parent : String) (d r : Nat)
    (td : ThreadDataM) (hb : parent ≠ "")
    (hp : getKey st.hm.map parent = some r) (hr : heapGet st.heap r = some td) :
    (getKey (storeAdd st child d parent).hm.map child =
      getKey (storeAdd st child d parent).hm.map parent) ∧
    ∀ fkey fval : String,
      storeReadField (storeWriteField (storeAdd st child d parent) child fkey fval true)
        parent fkey = some fval ∧
      storeReadField (storeWriteField (storeAdd st child d parent) parent fkey fval true)
        child fkey = some fval := by
  have hmap : (storeAdd st child d parent).hm.map = setKey st.hm.map child r := by
    simp [storeAdd, addData, hb, hp]
  have hchild : getKey (storeAdd st child d parent).hm.map child = some r := by
    rw [hmap, getKey_setKey]
    simp
  have hparent : getKey (storeAdd st child d parent).hm.map parent = some r := by
    rw [hmap, getKey_setKey]
    rcases eq_or_ne child parent with h | h
    · rw [if_pos h]
    · rw [if_neg h]
      exact hp
  have hheap : (storeAdd st child d parent).heap = st.heap := rfl
  refine ⟨by rw [hchild, hparent], ?_⟩
  intro fkey fval
  have hwrite : ∀ kk : String, getKey (storeAdd st child d parent).hm.map kk = some r →
      storeWriteField (storeAdd st child d parent) kk fkey fval true =
        { storeAdd st child d parent with
          heap := heapSet st.heap r (tdAddLogField td fkey fval true) } := by
    intro kk hkk
    simp [storeWriteField, hkk, hheap, hr]
  have hread : ∀ kk : String, getKey (storeAdd st child d parent).hm.map kk = some r →
      storeReadField { storeAdd st child d parent with
          heap := heapSet st.heap r (tdAddLogField td fkey fval true) } kk fkey =
        some fval := by
    intro kk hkk
    simp [storeReadField, hkk, heapGet_heapSet, tdAddLogField, getKey_mapSet]
  exact ⟨by rw [hwrite child hchild]; exact hread parent hparent,
         by rw [hwrite parent hparent]; exact hread child hchild⟩

/-- Witness for C4 at the concrete one-parent store. -/
theorem derived_key_aliases_parent_witness :
    (getKey (storeAdd c4St "child" 5 "parent").hm.map "child" =
      getKey (storeAdd c4St "child" 5 "parent").hm.map "parent") ∧
    storeReadField (storeWriteField (storeAdd c4St "child" 5 "parent") "child" "f" "v" true)
      "parent" "f" = some "v" := by
  have h := derived_key_aliases_parent c4St "child" "parent" 5 0
    { logid := "p", fields := [], spans := [] } (by decide) (by decide) (by decide)
  exact ⟨h.1, (h.2 "f" "v").1⟩

/-- C5 (code bug): the guard condition of ThreadDataManager::GetKeyGuard is
inverted.  When the thread's active identifier IS set, the function logs
"ThreadData not initialized" and returns a fresh default ThreadData instead
of a store handle for that identifier; when no identifier is set it
dereferences a null pointer.  The intended store-handle result is
unreachable for every input. -/
theorem release_handle_inverted_guard :
    tdmGetKeyGuard (some "abc") = GuardResult.fresh ∧
    tdmGetKeyGuard none = GuardResult.nullDeref ∧
    ∀ (p : Option String) (k : String), tdmGetKeyGuard p ≠ GuardResult.storeGuard k := by
  refine ⟨rfl, rfl, ?_⟩
  intro p k
  cases p <;> simp [tdmGetKeyGuard]

/-! ### Lemmas: span merging (C2) -/

/-- Lookup of the merged name after one emission. -/
theorem getKey_spanMerge_self (sp : List (String × Int × Int)) (n : String) (s e : Int) :
    getKey (spanMerge sp n s e) n =
      some (match getKey sp n with
            | none => (s, e)
            | some c => (min c.1 s, max c.2 e)) := by
  cases hg : getKey sp n with
  | none => simp [spanMerge, hg, getKey_mapSet]
  | some c => simp [spanMerge, hg, getKey_mapSet]

/-- One emission leaves every other name's pair unchanged. -/
theorem getKey_spanMerge_other (sp : List (String × Int × Int)) (n : String) (s e : Int)
    (n' : String) (hne : n ≠ n') :
    getKey (spanMerge sp n s e) n' = getKey sp n' := by
  cases hg : getKey sp n with
  | none => simp [spanMerge, hg, getKey_mapSet, hne]
  | some c => simp [spanMerge, hg, getKey_mapSet, hne]

theorem runEmissions_cons (sp : List (String × Int × Int)) (n : String)
    (p : Int × Int) (rest : List (Int × Int)) :
    runEmissions sp n (p :: rest) = runEmissions (spanMerge sp n p.1 p.2) n rest := rfl

/-- The stored pair after a sequence of emissions is the fold of min on
starts and max on ends over the existing pair. -/
theorem runEmissions_char (sp : List (String × Int × Int)) (n : String) (a b : Int)
    (hg : getKey sp n = some (a, b)) (l : List (Int × Int)) :
    getKey (runEmissions sp n l) n =
      some (l.foldl (fun x q => min x q.1) a, l.foldl (fun x q => max x q.2) b) := by
  induction l generalizing sp a b with
  | nil => simpa [runEmissions] using hg
  | cons p rest ih =>
    have h1 : getKey (spanMerge sp n p.1 p.2) n = some (min a p.1, max b p.2) := by
      rw [getKey_spanMerge_self, hg]
    rw [runEmissions_cons]
    exact ih (spanMerge sp n p.1 p.2) (min a p.1) (max b p.2) h1

/-- When the name is fresh, the stored pair is the fold starting from the
first emission. -/
theorem runEmissions_fresh_char (sp : List (String × Int × Int)) (n : String)
    (h : getKey sp n = none) (p : Int × Int) (l : List (Int × Int)) :
    getKey (runEmissions sp n (p :: l)) n =
      some (l.foldl (fun x q => min x q.1) p.1, l.foldl (fun x q => max x q.2) p.2) := by
  have h0 : getKey (spanMerge sp n p.1 p.2) n = some (p.1, p.2) := by
    rw [getKey_spanMerge_self, h]
  rw [runEmissions_cons]
  exact runEmissions_char (spanMerge sp n p.1 p.2) n p.1 p.2 h0 l

theorem foldl_min_mem (a : Int) (l : List Int) : l.foldl min a ∈ a :: l := by
  induction l generalizing a with
  | nil => simp
  | cons x xs ih =>
    rw [List.foldl_cons]
    rcases List.mem_cons.mp (ih (min a x)) with h | h
    · rcases min_choice a x with hm | hm
      · rw [h, hm]
        exact List.mem_cons_self _ _
      · rw [h, hm]
        exact List.mem_cons_of_mem _ (List.mem_cons_self _ _)
    · exact List.mem_cons_of_mem _ (List.mem_cons_of_mem _ h)

theorem foldl_min_le (a : Int) (l : List Int) : ∀ x ∈ a :: l, l.foldl min a ≤ x := by
  induction l generalizing a with
  | nil =>
    intro x hx
    rw [List.mem_singleton] at hx
    simp [hx]
  | cons y ys ih =>
    intro x hx
    rw [List.foldl_cons]
    rcases List.mem_cons.mp hx with rfl | hx'
    · calc ys.foldl min (min x y) ≤ min x y := ih (min x y) _ (List.mem_cons_self _ _)
        _ ≤ x := min_le_left x y
    · rcases List.mem_cons.mp hx' with rfl | hx''
      · calc ys.foldl min (min a x) ≤ min a x := ih (min a x) _ (List.mem_cons_self _ _)
          _ ≤ x := min_le_right a x
      · exact ih (min a y) x (List.mem_cons_of_mem _ hx'')

theorem foldl_max_mem (a : Int) (l : List Int) : l.foldl max a ∈ a :: l := by
  induction l generalizing a with
  | nil => simp
  | cons x xs ih =>
    rw [List.foldl_cons]
    rcases List.mem_cons.mp (ih (max a x)) with h | h
    · rcases max_choice a x with hm | hm
      · rw [h, hm]
        exact List.mem_cons_self _ _
      · rw [h, hm]
        exact List.mem_cons_of_mem _ (List.mem_cons_self _ _)
    · exact List.mem_cons_of_mem _ (List.mem_cons_of_mem _ h)

theorem foldl_max_ge (a : Int) (l : List Int) : ∀ x ∈ a :: l, x ≤ l.foldl max a := by
  induction l generalizing a with
  | nil =>
    intro x hx
    rw [List.mem_singleton] at hx
    simp [hx]
  | cons y ys ih =>
    intro x hx
    rw [List.foldl_cons]
    rcases List.mem_cons.mp hx with rfl | hx'
    · calc x ≤ max x y := le_max_left x y
        _ ≤ ys.foldl max (max x y) := ih (max x y) _ (List.mem_cons_self _ _)
    · rcases List.mem_cons.mp hx' with rfl | hx''
      · calc x ≤ max a x := le_max_right a x
          _ ≤ ys.foldl max (max a x) := ih (max a x) _ (List.mem_cons_self _ _)
      · exact ih (max a y) x (List.mem_cons_of_mem _ hx'')

theorem foldl_min_pair_mem (a : Int) (l : List (Int × Int)) :
    l.foldl (fun x q => min x q.1) a ∈ a :: l.map Prod.fst := by
  have h := foldl_min_mem a (l.map Prod.fst)
  rwa [List.foldl_map] at h

theorem foldl_min_pair_le (a : Int) (l : List (Int × Int)) :
    ∀ x ∈ a :: l.map Prod.fst, l.foldl (fun x q => min x q.1) a ≤ x := by
  have h := foldl_min_le a (l.map Prod.fst)
  rwa [List.foldl_map] at h

theorem foldl_max_pair_mem (a : Int) (l : List (Int × Int)) :
    l.foldl (fun x q => max x q.2) a ∈ a :: l.map Prod.snd := by
  have h := foldl_max_mem a (l.map Prod.snd)
  rwa [List.foldl_map] at h

theorem foldl_max_pair_ge (a : Int) (l : List (Int × Int)) :
    ∀ x ∈ a :: l.map Prod.snd, x ≤ l.foldl (fun x q => max x q.2) a := by
  have h := foldl_max_ge a (l.map Prod.snd)
  rwa [List.foldl_map] at h

/-- C2: for any nonempty sequence of emissions for one (fresh) name, the
stored pair is exactly (minimum of all emitted starts, maximum of all emitted
ends), and delivering the emissions in any other order produces the same
stored pair — the merge is an order-independent min/max fold. -/
theorem span_merge_min_max (sp : List (String × Int × Int)) (n : String)
    (h : getKey sp n = none) (p : Int × Int) (l : List (Int × Int)) :
    (∃ a b : Int,
      getKey (runEmissions sp n (p :: l)) n = some (a, b) ∧
      a ∈ (p :: l).map Prod.fst ∧ (∀ x ∈ (p :: l).map Prod.fst, a ≤ x) ∧
      b ∈ (p :: l).map Prod.snd ∧ (∀ x ∈ (p :: l).map Prod.snd, x ≤ b)) ∧
    ∀ l' : List (Int × Int), (p :: l).Perm l' →
      getKey (runEmissions sp n l') n = getKey (runEmissions sp n (p :: l)) n := by
  constructor
  · refine ⟨l.foldl (fun x q => min x q.1) p.1, l.foldl (fun x q => max x q.2) p.2,
      runEmissions_fresh_char sp n h p l, ?_, ?_, ?_, ?_⟩
    · exact foldl_min_pair_mem p.1 l
    · exact foldl_min_pair_le p.1 l
    · exact foldl_max_pair_mem p.2 l
    · exact foldl_max_pair_ge p.2 l
  · intro l' hperm
    cases l' with
    | nil =>
      have := hperm.length_eq
      simp at this
    | cons q l'' =>
      rw [runEmissions_fresh_char sp n h q l'', runEmissions_fresh_char sp n h p l]
      have hmf : ((p :: l).map Prod.fst).Perm ((q :: l'').map Prod.fst) := hperm.map _
      have hms : ((p :: l).map Prod.snd).Perm ((q :: l'').map Prod.snd) := hperm.map _
      have heqa : l''.foldl (fun x r => min x r.1) q.1 = l.foldl (fun x r => min x r.1) p.1 := by
        apply le_antisymm
        · exact foldl_min_pair_le q.1 l'' _ (hmf.mem_iff.mp (foldl_min_pair_mem p.1 l))
        · exact foldl_min_pair_le p.1 l _ (hmf.mem_iff.mpr (foldl_min_pair_mem q.1 l''))
      have heqb : l''.foldl (fun x r => max x r.2) q.2 = l.foldl (fun x r => max x r.2) p.2 := by
        apply le_antisymm
        · exact foldl_max_pair_ge p.2 l _ (hms.mem_iff.mpr (foldl_max_pair_mem q.2 l''))
        · exact foldl_max_pair_ge q.2 l'' _ (hms.mem_iff.mp (foldl_max_pair_mem p.2 l))
      rw [heqa, heqb]

/-- Witness for C2: three out-of-order emissions for name "a" merge to
(min, max) = (1, 10), and a permuted delivery yields the same pair. -/
theorem span_merge_min_max_witness :
    getKey (runEmissions [] "a" [(5, 10), (1, 3)]) "a" = some (1, 10) ∧
    getKey (runEmissions [] "a" [(1, 3), (5, 10)]) "a" =
      getKey (runEmissions [] "a" [(5, 10), (1, 3)]) "a" := by
  have h := span_merge_min_max [] "a" (by decide) (5, 10) [(1, 3)]
  refine ⟨?_, h.2 [(1, 3), (5, 10)] (by decide)⟩
  obtain ⟨a, b, hab, ham, hale, hbm, hbge⟩ := h.1
  rw [hab]
  have ha : a = 1 := by
    have h1 := hale 1 (by decide)
    have h2 : a ∈ [(5 : Int), 1] := ham
    rcases List.mem_cons.mp h2 with rfl | h3
    · omega
    · rw [List.mem_singleton] at h3
      omega
  have hb : b = 10 := by
    have h1 := hbge 10 (by decide)
    have h2 : b ∈ [(10 : Int), 3] := hbm
    rcases List.mem_cons.mp h2 with rfl | h3
    · omega
    · rw [List.mem_singleton] at h3
      omega
  rw [ha, hb]

/-! ### Lemmas: report rendering (C7, C6) -/

/-- The stream-style left fold of the C++ joining loop equals the
no-trailing-separator space join. -/
theorem foldl_join_space (s : String) (rest : List String) :
    rest.foldl (fun acc x => acc ++ " " ++ x) s = joinSpace (s :: rest) := by
  induction rest generalizing s with
  | nil => rfl
  | cons y ys ih =>
    rw [List.foldl_cons, ih (s ++ " " ++ y)]
    cases ys with
    | nil => rfl
    | cons z zs =>
      show s ++ " " ++ y ++ " " ++ joinSpace (z :: zs) =
        s ++ " " ++ (y ++ " " ++ joinSpace (z :: zs))
      simp [String.append_assoc]

theorem tcReport_eq_joinSpace (spans : List (String × Int × Int)) :
    tcReport spans = joinSpace (spans.map spanEntry) := by
  unfold tcReport
  cases hm : spans.map spanEntry with
  | nil => rfl
  | cons s rest => exact foldl_join_space s rest

set_option maxRecDepth 10000 in
theorem pad3_length : ∀ d : Nat, d < 1000 → (pad3 d).length = 3 := by decide

/-- C7: the span report renders one entry per stored span, in the stored
(ascending-name) order, joined by single spaces with no trailing separator;
each entry shows elapsed = end - start in milliseconds with exactly three
fractional digits; an empty aggregator renders the empty string; and the
spec's concrete example renders exactly as claimed. -/
theorem tc_report_renders (spans : List (String × Int × Int))
    (hs : spans.Pairwise (fun a b => a.1 < b.1)) :
    tcReport spans = joinSpace (spans.map spanEntry) ∧
    List.Pairwise (fun a b : String => a < b) (spans.map Prod.fst) ∧
    (∀ p ∈ spans, ∃ d : Nat, d < 1000 ∧ (pad3 d).length = 3 ∧
      spanEntry p = "[" ++ p.1 ++ ": " ++ toString ((p.2.2 - p.2.1) / 1000) ++ "." ++
        pad3 d ++ "(ms)]") ∧
    tcReport [] = "" ∧
    tcReport [("a", (0, 100)), ("b", (50, 200))] = "[a: 0.100(ms)] [b: 0.150(ms)]" := by
  refine ⟨tcReport_eq_joinSpace spans, ?_, ?_, rfl, by decide⟩
  · exact List.Pairwise.map Prod.fst (fun a b hab => hab) hs
  · intro p hp
    have h1 : (0 : Int) ≤ (p.2.2 - p.2.1) % 1000 :=
      Int.emod_nonneg _ (by norm_num)
    have h2 : (p.2.2 - p.2.1) % 1000 < 1000 :=
      Int.emod_lt_of_pos _ (by norm_num)
    refine ⟨((p.2.2 - p.2.1) % 1000).toNat, by omega, pad3_length _ (by omega), ?_⟩
    simp [spanEntry, fmtMs, String.append_assoc]

/-- Witness for C7 at the spec's example aggregator state. -/
theorem tc_report_renders_witness :
    tcReport [("a", ((0 : Int), (100 : Int))), ("b", (50, 200))] =
      "[a: 0.100(ms)] [b: 0.150(ms)]" ∧
    tcReport [] = "" := by
  refine ⟨(tc_report_renders [("a", (0, 100)), ("b", (50, 200))] ?_).2.2.2.2,
    (tc_report_renders [] (by simp)).2.2.2.1⟩
  simp only [List.pairwise_cons, List.mem_singleton, List.not_mem_nil, false_implies,
    implies_true, and_true, List.Pairwise.nil]
  intro b hb
  subst hb
  rw [String.lt_iff_toList_lt]
  decide

/-- The stream-style field-appending loop equals prefix-plus-concatenation. -/
theorem foldl_fields (init : String) (l : List (String × String)) :
    l.foldl (fun acc p => acc ++ " [" ++ p.1 ++ ": " ++ p.2 ++ "]") init =
      init ++ joinAll (l.map (fun p => " [" ++ p.1 ++ ": " ++ p.2 ++ "]")) := by
  induction l generalizing init with
  | nil => simp [joinAll]
  | cons p rest ih =>
    rw [List.foldl_cons, ih, List.map_cons]
    show init ++ " [" ++ p.1 ++ ": " ++ p.2 ++ "]" ++ _ = _
    rw [joinAll]
    simp [String.append_assoc]

/-- C6 counterexample: for the Context with identifier "x", no fields and an
empty aggregator, report() renders "[logid: x] " — the separator space before
the span report is emitted even though the span report is empty, leaving a
trailing space, and the tag is "logid", not "identifier". -/
theorem context_report_counterexample :
    tdReport c6Td = "[logid: x] " ∧
    tdReport c6Td ≠ "[identifier: x]" ∧
    tdReport c6Td ≠ "[logid: x]" := by
  refine ⟨by decide, by decide, by decide⟩

/-- C6 amended: report() returns "[logid: <id>]" followed by one
" [<key>: <value>]" per field in stored (ascending-key) order, then a single
space and the Span Aggregator's report — the space is emitted even when the
span report is empty, so an empty aggregator leaves a trailing space.  The
field map stays sorted under add_log_field, so fields render in ascending
key order. -/
theorem context_report_renders (td : ThreadDataM)
    (h : td.fields.Pairwise (fun a b => a.1 < b.1)) :
    tdReport td = specTdReport td.logid td.fields (tcReport td.spans) ∧
    ∀ (k v : String) (ow : Bool),
      (tdAddLogField td k v ow).fields.Pairwise (fun a b => a.1 < b.1) := by
  constructor
  · unfold tdReport specTdReport
    rw [foldl_fields]
  · intro k v ow
    unfold tdAddLogField
    split
    · exact h
    · exact pairwise_mapSet h

/-- Witness for C6 (amended) at the empty Context. -/
theorem context_report_renders_witness :
    tdReport c6Td = specTdReport "x" [] (tcReport []) :=
  (context_report_renders c6Td (by simp [c6Td])).1

/-! ### Lemmas: TimeRecorder emission (C3) -/

/-- Once uploaded, a step never emits and the recorder stays uploaded. -/
theorem trStep_uploaded (tr : TimeRecorderM) (op : TROp) (h : tr.uploaded = true) :
    (trStep tr op).2 = none ∧ (trStep tr op).1.uploaded = true := by
  cases op with
  | start t =>
    refine ⟨rfl, ?_⟩
    simp only [trStep, trStart]
    split <;> simp [h]
  | stop t =>
    simp only [trStep, trEnd, trUpload]
    split
    · exact ⟨rfl, h⟩
    · simp [h]
  | finalize t =>
    simp only [trStep, trUpload]
    simp [h]

/-- Before upload, a step emits exactly when it flips the uploaded flag. -/
theorem trStep_emit_iff (tr : TimeRecorderM) (op : TROp) (h : tr.uploaded = false) :
    (trStep tr op).2.isSome = (trStep tr op).1.uploaded := by
  cases op with
  | start t =>
    simp only [trStep, trStart]
    split <;> simp [h]
  | stop t =>
    simp only [trStep, trEnd, trUpload]
    split
    · simp [h]
    · simp [h]
  | finalize t =>
    simp only [trStep, trUpload]
    simp [h]

/-- A run from an uploaded recorder emits nothing. -/
theorem trRun_uploaded (tr : TimeRecorderM) (ops : List TROp) (h : tr.uploaded = true) :
    (trRun tr ops).2 = [] ∧ (trRun tr ops).1.uploaded = true := by
  induction ops generalizing tr with
  | nil => exact ⟨rfl, h⟩
  | cons op rest ih =>
    obtain ⟨h1, h2⟩ := trStep_uploaded tr op h
    obtain ⟨h3, h4⟩ := ih (trStep tr op).1 h2
    refine ⟨?_, h4⟩
    simp [trRun, h1, h3]

/-- A run from a not-yet-uploaded recorder emits once if it ends uploaded,
never otherwise. -/
theorem trRun_count (tr : TimeRecorderM) (ops : List TROp) (h : tr.uploaded = false) :
    (trRun tr ops).2.length = (if (trRun tr ops).1.uploaded then 1 else 0) := by
  induction ops generalizing tr with
  | nil => simp [trRun, h]
  | cons op rest ih =>
    have hiff := trStep_emit_iff tr op h
    cases hu : (trStep tr op).1.uploaded with
    | true =>
      rw [hu] at hiff
      obtain ⟨h3, h4⟩ := trRun_uploaded (trStep tr op).1 rest hu
      cases hemit : (trStep tr op).2 with
      | none => rw [hemit] at hiff; simp at hiff
      | some e => simp [trRun, hemit, h3, h4]
    | false =>
      rw [hu] at hiff
      have hrest := ih (trStep tr op).1 hu
      cases hemit : (trStep tr op).2 with
      | none => simpa [trRun, hemit] using hrest
      | some e => rw [hemit] at hiff; simp at hiff

/-- A run ending in forced finalization ends uploaded. -/
theorem trRun_finalize_uploaded (tr : TimeRecorderM) (ops : List TROp) (t : Int) :
    (trRun tr (ops ++ [TROp.finalize t])).1.uploaded = true := by
  induction ops generalizing tr with
  | nil =>
    simp only [List.nil_append, trRun, trStep, trUpload]
    split
    · rename_i h
      simpa [trRun] using h
    · simp [trRun]
  | cons op rest ih =>
    simp only [List.cons_append, trRun]
    exact ih (trStep tr op).1

/-- Once a recorder is started, its start instant is frozen: every later
emission carries exactly that instant. -/
theorem trRun_started (tr : TimeRecorderM) (ops : List TROp) (h1 : tr.is_start = true) :
    ∀ e ∈ (trRun tr ops).2, e.2.1 = tr.start_at := by
  induction ops generalizing tr with
  | nil => simp [trRun]
  | cons op rest ih =>
    intro e he
    have hmem : e ∈ (trStep tr op).2.toList ∨ e ∈ (trRun (trStep tr op).1 rest).2 := by
      rw [show trRun tr (op :: rest) =
        ((trRun (trStep tr op).1 rest).1,
         (trStep tr op).2.toList ++ (trRun (trStep tr op).1 rest).2) from rfl] at he
      exact List.mem_append.mp he
    have hpres : (trStep tr op).1.is_start = true ∧ (trStep tr op).1.start_at = tr.start_at := by
      cases op with
      | start t => simp [trStep, trStart, h1]
      | stop t =>
        by_cases hend : tr.is_end
        · simp [trStep, trEnd, hend, h1]
        · by_cases hup : tr.uploaded
          · simp [trStep, trEnd, hend, trUpload, hup, h1]
          · simp [trStep, trEnd, hend, trUpload, hup, h1]
      | finalize t =>
        by_cases hup : tr.uploaded
        · simp [trStep, trUpload, hup, h1]
        · simp [trStep, trUpload, hup, h1]
    rcases hmem with h2 | h2
    · cases op with
      | start t => simp [trStep] at h2
      | stop t =>
        by_cases hend : tr.is_end
        · simp [trStep, trEnd, hend] at h2
        · by_cases hup : tr.uploaded
          · simp [trStep, trEnd, hend, trUpload, hup] at h2
          · simp [trStep, trEnd, hend, trUpload, hup, h1] at h2
            rw [h2]
      | finalize t =>
        by_cases hup : tr.uploaded
        · simp [trStep, trUpload, hup] at h2
        · simp [trStep, trUpload, hup, h1] at h2
          rw [h2]
    · have := ih (trStep tr op).1 hpres.1 e h2
      rw [this, hpres.2]

/-- C3: a TimeRecorder emits at most once over any operation prefix, exactly
once over a lifetime ending in destruction, and every emission's effective
start equals the instant of the start() recorded before the recorder emitted
— the leading start(), since a start() after the first end()/finalization is
the documented no-op — and equals the creation instant when no start() was
recorded. -/
theorem timer_emits_exactly_once (nm : String) (c : Int) (ops : List TROp) (t : Int) :
    (trRun (trInit nm c) ops).2.length ≤ 1 ∧
    (trRun (trInit nm c) (ops ++ [TROp.finalize t])).2.length = 1 ∧
    ∀ e ∈ (trRun (trInit nm c) ops).2, e.2.1 = effStartOfOps c ops := by
  have hinit : (trInit nm c).uploaded = false := rfl
  refine ⟨?_, ?_, ?_⟩
  · rw [trRun_count (trInit nm c) ops hinit]
    split <;> omega
  · rw [trRun_count (trInit nm c) (ops ++ [TROp.finalize t]) hinit,
      trRun_finalize_uploaded]
    rfl
  · intro e he
    cases ops with
    | nil => simp [trRun] at he
    | cons op rest =>
      cases op with
      | start u =>
        have hstep : trStep (trInit nm c) (TROp.start u) =
            ({ trInit nm c with start_at := u, is_start := true }, none) := rfl
        have hruns : (trRun (trInit nm c) (TROp.start u :: rest)).2 =
            (trRun { trInit nm c with start_at := u, is_start := true } rest).2 := by
          rw [show trRun (trInit nm c) (TROp.start u :: rest) =
            ((trRun (trStep (trInit nm c) (TROp.start u)).1 rest).1,
             (trStep (trInit nm c) (TROp.start u)).2.toList ++
               (trRun (trStep (trInit nm c) (TROp.start u)).1 rest).2) from rfl, hstep]
          simp
        rw [hruns] at he
        have := trRun_started { trInit nm c with start_at := u, is_start := true }
          rest rfl e he
        simpa [effStartOfOps] using this
      | stop u =>
        have hstep : trStep (trInit nm c) (TROp.stop u) =
            ({ trInit nm c with end_at := u, is_end := true, uploaded := true },
             some (nm, c, u)) := rfl
        have hrest := trRun_uploaded
          { trInit nm c with end_at := u, is_end := true, uploaded := true } rest rfl
        have hruns : (trRun (trInit nm c) (TROp.stop u :: rest)).2 = [(nm, c, u)] := by
          rw [show trRun (trInit nm c) (TROp.stop u :: rest) =
            ((trRun (trStep (trInit nm c) (TROp.stop u)).1 rest).1,
             (trStep (trInit nm c) (TROp.stop u)).2.toList ++
               (trRun (trStep (trInit nm c) (TROp.stop u)).1 rest).2) from rfl, hstep]
          simp [hrest.1]
        rw [hruns, List.mem_singleton] at he
        rw [he]
        rfl
      | finalize u =>
        have hstep : trStep (trInit nm c) (TROp.finalize u) =
            ({ trInit nm c with uploaded := true }, some (nm, c, u)) := rfl
        have hrest := trRun_uploaded { trInit nm c with uploaded := true } rest rfl
        have hruns : (trRun (trInit nm c) (TROp.finalize u :: rest)).2 = [(nm, c, u)] := by
          rw [show trRun (trInit nm c) (TROp.finalize u :: rest) =
            ((trRun (trStep (trInit nm c) (TROp.finalize u)).1 rest).1,
             (trStep (trInit nm c) (TROp.finalize u)).2.toList ++
               (trRun (trStep (trInit nm c) (TROp.finalize u)).1 rest).2) from rfl, hstep]
          simp [hrest.1]
        rw [hruns, List.mem_singleton] at he
        rw [he]
        rfl

end Timekeeper
